import Mathlib

/-!
Shallow embedding of the asynchronous process-executor core of the jslib
repository (files: src/sys-node.mjs, src/sys-common.mjs and the GJS variant),
together with proofs of the specification claims about it.

Text is modelled as lists of characters; JS arrays of strings as lists of
character lists.  The executor's mutable private fields become a structure,
and each event handler wired by Executor.execute becomes an explicit state
transition returning the new state plus a list of observable outputs
(waiter wake-ups, rejections, diagnostic-sink logs, lines returned by
reads, the end-of-stream sentinel, waiter registrations).
-/

namespace JsLib

/-- Helper for modelling JS String.split: prepend character c to the first
piece of a piece list (used when c is not the separator). -/
def consHead (c : Char) : List (List Char) → List (List Char)
  | [] => [[c]]
  | p :: ps => (c :: p) :: ps

/-- Model of the JS built-in String.prototype.split with a single-character
separator: the pieces between separator occurrences, empty pieces preserved;
the empty string yields one empty piece, as in JS. -/
def splitSep (sep : Char) : List Char → List (List Char)
  | [] => [[]]
  | c :: cs => if c = sep then [] :: splitSep sep cs else consHead c (splitSep sep cs)

theorem consHead_ne_nil (c : Char) (l : List (List Char)) : consHead c l ≠ [] := by
  cases l <;> simp [consHead]

theorem splitSep_ne_nil (sep : Char) (l : List Char) : splitSep sep l ≠ [] := by
  induction l with
  | nil => simp [splitSep]
  | cons c cs ih =>
    by_cases h : c = sep
    · simp [splitSep, h]
    · simp only [splitSep, if_neg h]
      exact consHead_ne_nil c _

theorem consHead_length (c : Char) (l : List (List Char)) (h : l ≠ []) :
    (consHead c l).length = l.length := by
  cases l with
  | nil => exact absurd rfl h
  | cons p ps => simp [consHead]

/-- The number of pieces produced by split is the separator count plus one. -/
theorem splitSep_length (sep : Char) (l : List Char) :
    (splitSep sep l).length = l.count sep + 1 := by
  induction l with
  | nil => simp [splitSep]
  | cons c cs ih =>
    by_cases h : c = sep
    · simp [splitSep, h, List.count_cons, ih]
    · simp only [splitSep, if_neg h]
      rw [consHead_length c _ (splitSep_ne_nil sep cs), ih, List.count_cons]
      simp [h]

/-- The last piece of a split never contains the separator. -/
theorem sep_not_mem_getLastD_splitSep (sep : Char) (l : List Char) :
    sep ∉ (splitSep sep l).getLastD [] := by
  induction l with
  | nil => simp [splitSep]
  | cons c cs ih =>
    by_cases h : c = sep
    · simp only [splitSep, if_pos h]
      rcases hs : splitSep sep cs with _ | ⟨p, ps⟩
      · exact absurd hs (splitSep_ne_nil sep cs)
      · rw [hs] at ih; simpa [List.getLastD_cons] using ih
    · simp only [splitSep, if_neg h]
      rcases hs : splitSep sep cs with _ | ⟨p, ps⟩
      · exact absurd hs (splitSep_ne_nil sep cs)
      · rw [hs] at ih
        cases ps with
        | nil =>
          simp only [consHead, List.getLastD_cons, List.getLastD_nil,
            List.mem_cons, not_or] at *
          exact ⟨fun he => h he.symm, ih⟩
        | cons q qs => simpa [consHead, List.getLastD_cons] using ih

/-- Splitting a string that does not contain the separator yields that single
piece. -/
theorem splitSep_of_not_mem (sep : Char) (l : List Char) (h : sep ∉ l) :
    splitSep sep l = [l] := by
  induction l with
  | nil => simp [splitSep]
  | cons c cs ih =>
    simp only [List.mem_cons, not_or] at h
    have hc : ¬ c = sep := fun hcc => h.1 hcc.symm
    simp only [splitSep, if_neg hc, ih h.2, consHead]

/-- Glue a piece onto the head of a piece list (the boundary piece of a
concatenation). -/
def glueHead (p : List Char) : List (List Char) → List (List Char)
  | [] => [p]
  | q :: qs => (p ++ q) :: qs

theorem glueHead_ne_nil (p : List Char) (l : List (List Char)) : glueHead p l ≠ [] := by
  cases l <;> simp [glueHead]

theorem getLastD_cons_of_ne_nil {α : Type} (a d : α) (l : List α) (h : l ≠ []) :
    (a :: l).getLastD d = l.getLastD d := by
  cases l with
  | nil => exact absurd rfl h
  | cons x xs => simp [List.getLastD_cons]

theorem getLastD_append_of_ne_nil {α : Type} (d : α) (u v : List α) (h : v ≠ []) :
    (u ++ v).getLastD d = v.getLastD d := by
  induction u with
  | nil => rfl
  | cons a u ih =>
    rw [List.cons_append, getLastD_cons_of_ne_nil _ _ _ (by simp [h]), ih]

theorem consHead_dropLast_glue (c : Char) (l ys : List (List Char))
    (hl : l ≠ []) (hys : ys ≠ []) :
    consHead c (l.dropLast ++ glueHead (l.getLastD []) ys)
      = (consHead c l).dropLast ++ glueHead ((consHead c l).getLastD []) ys := by
  rcases ys with _ | ⟨y, ys'⟩
  · exact absurd rfl hys
  rcases l with _ | ⟨p, ps⟩
  · exact absurd rfl hl
  cases ps with
  | nil => simp [consHead, glueHead, List.getLastD_cons]
  | cons q qs =>
    simp only [consHead, List.dropLast_cons₂, List.cons_append, glueHead,
      List.getLastD_cons]

/-- Homomorphism of split over concatenation: the pieces of x ++ y are the
complete pieces of x, then the boundary piece (last of x glued to first of y),
then the remaining pieces of y. -/
theorem splitSep_append (sep : Char) (x y : List Char) :
    splitSep sep (x ++ y)
      = (splitSep sep x).dropLast
        ++ glueHead ((splitSep sep x).getLastD []) (splitSep sep y) := by
  induction x with
  | nil =>
    rcases hs : splitSep sep y with _ | ⟨q, qs⟩
    · exact absurd hs (splitSep_ne_nil sep y)
    · simp [splitSep, glueHead, hs]
  | cons c cs ih =>
    by_cases h : c = sep
    · simp only [List.cons_append, splitSep, if_pos h, List.append_eq, ih]
      rw [List.dropLast_cons_of_ne_nil (splitSep_ne_nil sep cs),
        getLastD_cons_of_ne_nil _ _ _ (splitSep_ne_nil sep cs), List.cons_append]
    · simp only [List.cons_append, splitSep, if_neg h, List.append_eq, ih]
      exact consHead_dropLast_glue c _ _ (splitSep_ne_nil sep cs)
        (splitSep_ne_nil sep y)

/-- The line separator the Executor splits on (the source splits on the
newline string in both stream data handlers). -/
def lineSep : Char := '\n'

/-- The shared line-buffering logic of the two stream data handlers in
Executor.execute (sys-node.mjs lines 508-515 and 523-530, identical in both):
concatenate the chunk onto the pending partial, split on the separator, pop
the last piece back into the pending partial and push the others onto the
line buffer.  Returns the new buffer and the new pending partial. -/
def pushChunk (buffer : List (List Char)) (pending chunk : List Char) :
    List (List Char) × List Char :=
  let aLines := splitSep lineSep (pending ++ chunk)
  (buffer ++ aLines.dropLast, aLines.getLastD [])

theorem dropLast_append_of_ne_nil {α : Type} (u v : List α) (h : v ≠ []) :
    (u ++ v).dropLast = u ++ v.dropLast := by
  induction u with
  | nil => rfl
  | cons a u ih =>
    rw [List.cons_append, List.dropLast_cons_of_ne_nil (by simp [h]),
      ih, List.cons_append]

/-- Processing two chunks one after the other has the same effect on the
buffer and the pending partial as processing their concatenation. -/
theorem pushChunk_append (buffer : List (List Char)) (pending a b : List Char) :
    pushChunk (pushChunk buffer pending a).1 (pushChunk buffer pending a).2 b
      = pushChunk buffer pending (a ++ b) := by
  simp only [pushChunk]
  have h1 : splitSep lineSep ((splitSep lineSep (pending ++ a)).getLastD [] ++ b)
      = glueHead ((splitSep lineSep (pending ++ a)).getLastD [])
          (splitSep lineSep b) := by
    rw [splitSep_append,
      splitSep_of_not_mem lineSep _ (sep_not_mem_getLastD_splitSep lineSep (pending ++ a))]
    rfl
  have h2 : splitSep lineSep (pending ++ (a ++ b))
      = (splitSep lineSep (pending ++ a)).dropLast
        ++ glueHead ((splitSep lineSep (pending ++ a)).getLastD [])
            (splitSep lineSep b) := by
    rw [← List.append_assoc, splitSep_append]
  rw [h1, h2, Prod.mk.injEq]
  constructor
  · rw [dropLast_append_of_ne_nil _ _ (glueHead_ne_nil _ _), List.append_assoc]
  · rw [getLastD_append_of_ne_nil _ _ _ (glueHead_ne_nil _ _)]

/-- Processing the empty chunk leaves the buffer and pending partial unchanged
provided the pending partial contains no separator (an invariant of every
reachable executor state). -/
theorem pushChunk_nil (buffer : List (List Char)) (pending : List Char)
    (h : lineSep ∉ pending) :
    pushChunk buffer pending [] = (buffer, pending) := by
  simp [pushChunk, splitSep_of_not_mem lineSep pending h]

/-- The pending partial produced by pushChunk never contains the separator. -/
theorem pushChunk_pending_no_sep (buffer : List (List Char)) (pending chunk : List Char) :
    lineSep ∉ (pushChunk buffer pending chunk).2 :=
  sep_not_mem_getLastD_splitSep lineSep (pending ++ chunk)

/-- Identifies one of the two output streams of the child process. -/
inductive Sid
  | stdout
  | stderr
deriving DecidableEq

/-- The mutable private fields of the Executor class (sys-node.mjs lines
435-466).  The two promise-callback slots are modelled by the identity
(a number) of the pending waiter whose resolve/reject callback is stored;
none models the JS null. -/
structure Executor where
  bRunning : Bool := false
  iExitStatus : Option Int := none
  aStdoutBuffer : List (List Char) := []
  aStderrBuffer : List (List Char) := []
  sStdoutChunk : List Char := []
  sStderrChunk : List Char := []
  iStdoutIndex : Nat := 0
  iStderrIndex : Nat := 0
  fnOutputResolve : Option Nat := none
  fnOutputReject : Option Nat := none
deriving DecidableEq

/-- A freshly constructed Executor (all fields at their initializers). -/
def initExecutor : Executor := {}

/-- Observable outputs of the executor's transitions: a stored resolve
callback invoked (waking that waiter), a stored reject callback invoked with
the process error, a console.error diagnostic log, a line returned by a
next-line read, the null end-of-stream sentinel returned by a read, and a
read call suspending after registering its promise callbacks. -/
inductive Out
  | woke (w : Nat)
  | rejected (w : Nat)
  | logged
  | line (sid : Sid) (s : List Char)
  | eos (sid : Sid)
  | suspended (w : Nat)
deriving DecidableEq

/-- Executor.execute, state part (sys-node.mjs lines 488-506): reinitializes
the run flag, exit status, both line buffers, both pending chunks and both
read indices.  The spawn itself and the wiring of the four event handlers are
external; the handlers are modelled below as explicit transitions.  Note the
source does not touch the two promise-callback slots here. -/
def Executor.execute (st : Executor) (aCommand : List (List Char)) : Executor :=
  { st with
    bRunning := true
    iExitStatus := none
    aStdoutBuffer := []
    aStderrBuffer := []
    sStdoutChunk := []
    sStderrChunk := []
    iStdoutIndex := 0
    iStderrIndex := 0 }

/-- The stdout data handler (sys-node.mjs lines 508-521): buffer the chunk,
then, if a resolve callback is stored, invoke it and clear the slot. -/
def Executor.onStdoutData (st : Executor) (sChunk : List Char) : Executor × List Out :=
  let bp := pushChunk st.aStdoutBuffer st.sStdoutChunk sChunk
  let st' := { st with aStdoutBuffer := bp.1, sStdoutChunk := bp.2 }
  match st'.fnOutputResolve with
  | some w => ({ st' with fnOutputResolve := none }, [.woke w])
  | none => (st', [])

/-- The stderr data handler (sys-node.mjs lines 523-531): buffer the chunk.
Faithful to the source, this handler performs no notification: it never
invokes the stored resolve callback. -/
def Executor.onStderrData (st : Executor) (sChunk : List Char) : Executor × List Out :=
  let bp := pushChunk st.aStderrBuffer st.sStderrChunk sChunk
  ({ st with aStderrBuffer := bp.1, sStderrChunk := bp.2 }, [])

/-- The close handler (sys-node.mjs lines 533-541): clear the run flag,
record the exit code, and invoke the stored resolve callback if any. -/
def Executor.onClose (st : Executor) (iExitCode : Option Int) : Executor × List Out :=
  let st' := { st with bRunning := false, iExitStatus := iExitCode }
  match st'.fnOutputResolve with
  | some w => ({ st' with fnOutputResolve := none }, [.woke w])
  | none => (st', [])

/-- The error handler (sys-node.mjs lines 543-552): clear the run flag; if a
reject callback is stored, invoke it with the error and clear the slot,
otherwise log the error to console.error.  No field of the state retains the
error. -/
def Executor.onError (st : Executor) : Executor × List Out :=
  let st' := { st with bRunning := false }
  match st'.fnOutputReject with
  | some w => ({ st' with fnOutputReject := none }, [.rejected w])
  | none => (st', [.logged])

/-- One evaluation of the loop of getNextStdoutLine (sys-node.mjs lines
559-570) by the caller identified by w — a fresh call or a re-check after a
wake-up: if an unread line exists at the index, return it and advance the
index; otherwise return the null sentinel when the process is no longer
running, or store the caller's resolve/reject callbacks and suspend. -/
def Executor.stdoutReadStep (st : Executor) (w : Nat) : Executor × List Out :=
  if st.iStdoutIndex ≥ st.aStdoutBuffer.length then
    if !st.bRunning then (st, [.eos .stdout])
    else ({ st with fnOutputResolve := some w, fnOutputReject := some w },
      [.suspended w])
  else
    ({ st with iStdoutIndex := st.iStdoutIndex + 1 },
      [.line .stdout (st.aStdoutBuffer.getD st.iStdoutIndex [])])

/-- One evaluation of the loop of getNextStderrLine (sys-node.mjs lines
576-587), symmetric to the stdout read. -/
def Executor.stderrReadStep (st : Executor) (w : Nat) : Executor × List Out :=
  if st.iStderrIndex ≥ st.aStderrBuffer.length then
    if !st.bRunning then (st, [.eos .stderr])
    else ({ st with fnOutputResolve := some w, fnOutputReject := some w },
      [.suspended w])
  else
    ({ st with iStderrIndex := st.iStderrIndex + 1 },
      [.line .stderr (st.aStderrBuffer.getD st.iStderrIndex [])])

/-- The asynchronous events an executor can undergo after execute: runtime
event-handler invocations and read attempts by consumers (each read event
carries the identity of the calling task's promise). -/
inductive Event
  | stdoutData (chunk : List Char)
  | stderrData (chunk : List Char)
  | close (code : Option Int)
  | error
  | readStdout (w : Nat)
  | readStderr (w : Nat)

/-- Dispatch one event to the corresponding transition. -/
def Executor.stepEv (st : Executor) : Event → Executor × List Out
  | .stdoutData c => st.onStdoutData c
  | .stderrData c => st.onStderrData c
  | .close code => st.onClose code
  | .error => st.onError
  | .readStdout w => st.stdoutReadStep w
  | .readStderr w => st.stderrReadStep w

/-- Run a sequence of events, collecting all outputs in order. -/
def runEvents (st : Executor) : List Event → Executor × List Out
  | [] => (st, [])
  | e :: es =>
    let r := st.stepEv e
    let rest := runEvents r.1 es
    (rest.1, r.2 ++ rest.2)

theorem onStdoutData_fields (st : Executor) (c : List Char) :
    (st.onStdoutData c).1.aStdoutBuffer
        = (pushChunk st.aStdoutBuffer st.sStdoutChunk c).1
      ∧ (st.onStdoutData c).1.sStdoutChunk
        = (pushChunk st.aStdoutBuffer st.sStdoutChunk c).2 := by
  cases hr : st.fnOutputResolve <;> simp [Executor.onStdoutData, hr]

theorem runEvents_stdoutData_pair (chunks : List (List Char)) :
    ∀ st : Executor,
      ((runEvents st (chunks.map Event.stdoutData)).1.aStdoutBuffer,
        (runEvents st (chunks.map Event.stdoutData)).1.sStdoutChunk)
      = chunks.foldl (fun bp c => pushChunk bp.1 bp.2 c)
          (st.aStdoutBuffer, st.sStdoutChunk) := by
  induction chunks with
  | nil => intro st; rfl
  | cons c cs ih =>
    intro st
    have hf := onStdoutData_fields st c
    simp only [List.map_cons, runEvents, Executor.stepEv, List.foldl_cons]
    rw [ih, hf.1, hf.2]

theorem foldl_pushChunk (chunks : List (List Char)) :
    ∀ (buf : List (List Char)) (pend : List Char), lineSep ∉ pend →
      chunks.foldl (fun bp c => pushChunk bp.1 bp.2 c) (buf, pend)
        = pushChunk buf pend chunks.flatten := by
  induction chunks with
  | nil =>
    intro buf pend h
    rw [List.foldl_nil, List.flatten_nil, pushChunk_nil buf pend h]
  | cons c cs ih =>
    intro buf pend h
    rw [List.foldl_cons, List.flatten_cons,
      ih _ _ (pushChunk_pending_no_sep buf pend c), pushChunk_append]

/-- Claim C1: chunking invariance of the line buffer.  For any sequence of
chunks delivered to the stdout data handler of a freshly executed executor,
the resulting line buffer holds exactly the separator-delimited segments of
the chunks' concatenation T (all split pieces except the last), in order; the
unterminated remainder (the last split piece) is held in the pending-partial
field, not in the buffer; the number of buffered lines equals the number of
separators in T; and any other partition of T into chunks yields the same
buffer and the same pending partial. -/
theorem stdout_lineBuffer_chunking_invariance (st : Executor)
    (cmd : List (List Char)) (chunks : List (List Char)) :
    (runEvents (st.execute cmd) (chunks.map Event.stdoutData)).1.aStdoutBuffer
        = (splitSep lineSep chunks.flatten).dropLast
      ∧ (runEvents (st.execute cmd) (chunks.map Event.stdoutData)).1.sStdoutChunk
        = (splitSep lineSep chunks.flatten).getLastD []
      ∧ (runEvents (st.execute cmd) (chunks.map Event.stdoutData)).1.aStdoutBuffer.length
        = chunks.flatten.count lineSep
      ∧ (∀ chunks₂ : List (List Char), chunks₂.flatten = chunks.flatten →
          (runEvents (st.execute cmd) (chunks₂.map Event.stdoutData)).1.aStdoutBuffer
              = (runEvents (st.execute cmd) (chunks.map Event.stdoutData)).1.aStdoutBuffer
            ∧ (runEvents (st.execute cmd) (chunks₂.map Event.stdoutData)).1.sStdoutChunk
              = (runEvents (st.execute cmd) (chunks.map Event.stdoutData)).1.sStdoutChunk) := by
  have hkey : ∀ ch : List (List Char),
      ((runEvents (st.execute cmd) (ch.map Event.stdoutData)).1.aStdoutBuffer,
        (runEvents (st.execute cmd) (ch.map Event.stdoutData)).1.sStdoutChunk)
      = pushChunk [] [] ch.flatten := by
    intro ch
    rw [runEvents_stdoutData_pair]
    have hb : (st.execute cmd).aStdoutBuffer = [] := rfl
    have hp : (st.execute cmd).sStdoutChunk = [] := rfl
    rw [hb, hp, foldl_pushChunk ch [] [] (by simp)]
  have h1 := congrArg Prod.fst (hkey chunks)
  have h2 := congrArg Prod.snd (hkey chunks)
  simp only [pushChunk, List.nil_append] at h1 h2
  refine ⟨h1, h2, ?_, ?_⟩
  · rw [h1, List.length_dropLast, splitSep_length]
    omega
  · intro chunks₂ hflat
    have h1' := congrArg Prod.fst (hkey chunks₂)
    have h2' := congrArg Prod.snd (hkey chunks₂)
    simp only [pushChunk, List.nil_append] at h1' h2'
    rw [hflat] at h1' h2'
    exact ⟨h1'.trans h1.symm, h2'.trans h2.symm⟩

/-- Witness for claim C1: the text split as two chunks with the separator at
the end of the first chunk yields the same buffer as the same text split with
the separator at the start of the second chunk. -/
theorem stdout_lineBuffer_chunking_invariance_witness :
    (runEvents (initExecutor.execute []) ([['a', '\n'], ['b']].map Event.stdoutData)).1.aStdoutBuffer
      = (runEvents (initExecutor.execute []) ([['a'], ['\n', 'b']].map Event.stdoutData)).1.aStdoutBuffer :=
  ((stdout_lineBuffer_chunking_invariance initExecutor [] [['a'], ['\n', 'b']]).2.2.2
    [['a', '\n'], ['b']] (by rfl)).1

/-- Claim C8: every call to execute sets the run flag, clears the exit
status, and resets both line buffers, both pending partial chunks and both
read indices, so nothing from a previous run remains observable. -/
theorem execute_reset_postcondition (st : Executor) (cmd : List (List Char)) :
    (st.execute cmd).bRunning = true
      ∧ (st.execute cmd).iExitStatus = none
      ∧ (st.execute cmd).aStdoutBuffer = []
      ∧ (st.execute cmd).aStderrBuffer = []
      ∧ (st.execute cmd).sStdoutChunk = []
      ∧ (st.execute cmd).sStderrChunk = []
      ∧ (st.execute cmd).iStdoutIndex = 0
      ∧ (st.execute cmd).iStderrIndex = 0 :=
  ⟨rfl, rfl, rfl, rfl, rfl, rfl, rfl, rfl⟩

/-- Claim C9: an empty chunk delivered to a stream's data handler leaves
that stream's line buffer, pending partial and read index unchanged (given
the reachable-state invariant that the pending partial holds no separator,
established by pushChunk_pending_no_sep). -/
theorem empty_chunk_no_effect (st : Executor)
    (h1 : lineSep ∉ st.sStdoutChunk) (h2 : lineSep ∉ st.sStderrChunk) :
    ((st.onStdoutData []).1.aStdoutBuffer = st.aStdoutBuffer
        ∧ (st.onStdoutData []).1.sStdoutChunk = st.sStdoutChunk
        ∧ (st.onStdoutData []).1.iStdoutIndex = st.iStdoutIndex)
      ∧ ((st.onStderrData []).1.aStderrBuffer = st.aStderrBuffer
        ∧ (st.onStderrData []).1.sStderrChunk = st.sStderrChunk
        ∧ (st.onStderrData []).1.iStderrIndex = st.iStderrIndex) := by
  constructor
  · cases hr : st.fnOutputResolve <;>
      simp [Executor.onStdoutData, pushChunk_nil _ _ h1, hr]
  · simp [Executor.onStderrData, pushChunk_nil _ _ h2]

/-- Witness for claim C9 at a freshly constructed executor. -/
theorem empty_chunk_no_effect_witness :
    lineSep ∉ initExecutor.sStdoutChunk
      ∧ lineSep ∉ initExecutor.sStderrChunk
      ∧ (initExecutor.onStdoutData []).1.aStdoutBuffer = initExecutor.aStdoutBuffer :=
  ⟨by decide, by decide,
    (empty_chunk_no_effect initExecutor (by decide) (by decide)).1.1⟩

/-- Counterexample to claim C2: after execute, a process error arriving while
no caller is suspended is merely logged to the diagnostic sink (the state
retains no cause — the Executor structure has no error field at all), and the
first subsequent next-line call on either stream returns the normal
end-of-stream sentinel, not the error: the outputs of the two read steps are
exactly the eos sentinel, contradicting the claim that the stored error is
observed instead of the sentinel. -/
theorem error_unretained_counterexample :
    ((initExecutor.execute []).onError).2 = [Out.logged]
      ∧ (((initExecutor.execute []).onError).1.stdoutReadStep 0).2 = [Out.eos Sid.stdout]
      ∧ (((initExecutor.execute []).onError).1.stderrReadStep 0).2 = [Out.eos Sid.stderr] := by
  decide

/-- Claim C2 (amended): if a process error occurs while no reject callback is
registered, the executor only clears its run flag and logs the error to the
diagnostic sink; no error is retained, and — once the buffered lines are
drained — the first subsequent next-line call on either stream immediately
returns the end-of-stream sentinel (it does not suspend forever, but it does
not observe the error either). -/
theorem error_logged_then_reads_eos (st : Executor) (w w' : Nat)
    (hrej : st.fnOutputReject = none)
    (h1 : st.aStdoutBuffer.length ≤ st.iStdoutIndex)
    (h2 : st.aStderrBuffer.length ≤ st.iStderrIndex) :
    (st.onError).2 = [Out.logged]
      ∧ (st.onError).1.bRunning = false
      ∧ ((st.onError).1.stdoutReadStep w).2 = [Out.eos Sid.stdout]
      ∧ ((st.onError).1.stderrReadStep w').2 = [Out.eos Sid.stderr] := by
  have he : st.onError = ({ st with bRunning := false }, [Out.logged]) := by
    simp [Executor.onError, hrej]
  refine ⟨by rw [he], by rw [he], ?_, ?_⟩
  · rw [he]
    simp [Executor.stdoutReadStep, h1]
  · rw [he]
    simp [Executor.stderrReadStep, h2]

/-- Witness for the amended claim C2 at a freshly executed executor. -/
theorem error_logged_then_reads_eos_witness :
    ((initExecutor.execute []).onError).2 = [Out.logged]
      ∧ (((initExecutor.execute []).onError).1.stdoutReadStep 3).2 = [Out.eos Sid.stdout] :=
  ⟨(error_logged_then_reads_eos (initExecutor.execute []) 3 4 rfl
      (by decide) (by decide)).1,
    (error_logged_then_reads_eos (initExecutor.execute []) 3 4 rfl
      (by decide) (by decide)).2.2.1⟩

/-- Claim C3 (code bug): a caller suspended in the stderr next-line read (its
promise callbacks stored, waiter id 1) is not woken when a stderr chunk
containing a separator arrives: the stderr data handler grows the buffer but
emits no wake-up and leaves the stored resolve callback in place — whereas
the stdout data handler, in the otherwise identical situation, wakes the
waiter.  This evaluates the code at the failing input of the claim. -/
theorem stderr_data_does_not_wake_waiter :
    (((initExecutor.execute []).stderrReadStep 1).2 = [Out.suspended 1])
      ∧ ((((initExecutor.execute []).stderrReadStep 1).1.onStderrData ['x', '\n']).2 = [])
      ∧ ((((initExecutor.execute []).stderrReadStep 1).1.onStderrData ['x', '\n']).1.fnOutputResolve
          = some 1)
      ∧ ((((initExecutor.execute []).stderrReadStep 1).1.onStderrData ['x', '\n']).1.aStderrBuffer
          = [['x']])
      ∧ ((((initExecutor.execute []).stderrReadStep 1).1.onStdoutData ['x', '\n']).2
          = [Out.woke 1]) := by
  decide

/-- Claim C5 (code bug): with an empty buffer on a running executor, a first
next-line read suspends registering waiter 1; a second concurrent read
suspends registering waiter 2, silently overwriting the single resolver slot
(no ConcurrentConsumerError exists in the code); the next data arrival and
the close event wake only waiter 2 — waiter 1 is discarded unwoken. -/
theorem concurrent_reader_clobbers_waiter :
    (((initExecutor.execute []).stdoutReadStep 1).2 = [Out.suspended 1])
      ∧ ((((initExecutor.execute []).stdoutReadStep 1).1.stdoutReadStep 2).2
          = [Out.suspended 2])
      ∧ ((((initExecutor.execute []).stdoutReadStep 1).1.stdoutReadStep 2).1.fnOutputResolve
          = some 2)
      ∧ (((((initExecutor.execute []).stdoutReadStep 1).1.stdoutReadStep 2).1.onStdoutData
            ['a', '\n']).2 = [Out.woke 2])
      ∧ ((((((initExecutor.execute []).stdoutReadStep 1).1.stdoutReadStep 2).1.onStdoutData
            ['a', '\n']).1.onClose (some 0)).2 = []) := by
  decide

theorem drain_stdout_after_termination (k : Nat) :
    ∀ st : Executor, st.bRunning = false →
      (runEvents st (List.replicate k (Event.readStdout 0))).2
          = ((st.aStdoutBuffer.drop st.iStdoutIndex).take k).map (Out.line Sid.stdout)
            ++ List.replicate (k - (st.aStdoutBuffer.length - st.iStdoutIndex))
                (Out.eos Sid.stdout)
        ∧ (runEvents st (List.replicate k (Event.readStdout 0))).1.aStdoutBuffer
          = st.aStdoutBuffer
        ∧ (runEvents st (List.replicate k (Event.readStdout 0))).1.bRunning = false := by
  induction k with
  | zero => exact fun st h => ⟨by simp [runEvents], rfl, h⟩
  | succ k ih =>
    intro st h
    rw [List.replicate_succ]
    by_cases hc : st.aStdoutBuffer.length ≤ st.iStdoutIndex
    · have hstep : st.stepEv (Event.readStdout 0) = (st, [Out.eos Sid.stdout]) := by
        simp [Executor.stepEv, Executor.stdoutReadStep, ge_iff_le, hc, h]
      obtain ⟨ho, hb, hr⟩ := ih st h
      have hz : st.aStdoutBuffer.length - st.iStdoutIndex = 0 :=
        Nat.sub_eq_zero_of_le hc
      have hd : st.aStdoutBuffer.drop st.iStdoutIndex = [] :=
        List.drop_eq_nil_of_le hc
      refine ⟨?_, ?_, ?_⟩
      · simp only [runEvents, hstep, ho, hz, hd, Nat.sub_zero, List.take_nil,
          List.map_nil, List.nil_append, List.replicate_succ, List.cons_append,
          List.singleton_append]
      · simp only [runEvents, hstep, hb]
      · simp only [runEvents, hstep, hr]
    · have hlt : st.iStdoutIndex < st.aStdoutBuffer.length := Nat.lt_of_not_le hc
      have hstep : st.stepEv (Event.readStdout 0)
          = ({ st with iStdoutIndex := st.iStdoutIndex + 1 },
            [Out.line Sid.stdout (st.aStdoutBuffer.getD st.iStdoutIndex [])]) := by
        simp [Executor.stepEv, Executor.stdoutReadStep, ge_iff_le, hc]
      obtain ⟨ho, hb, hr⟩ := ih { st with iStdoutIndex := st.iStdoutIndex + 1 } h
      refine ⟨?_, ?_, ?_⟩
      · simp only [runEvents, hstep, ho]
        rw [List.drop_eq_getElem_cons hlt, List.take_succ_cons, List.map_cons,
          List.getD_eq_getElem _ _ hlt]
        have hcount : k + 1 - (st.aStdoutBuffer.length - st.iStdoutIndex)
            = k - (st.aStdoutBuffer.length - (st.iStdoutIndex + 1)) := by omega
        simp [hcount]
      · simp only [runEvents, hstep, hb]
      · simp only [runEvents, hstep, hr]

theorem drain_stderr_after_termination (k : Nat) :
    ∀ st : Executor, st.bRunning = false →
      (runEvents st (List.replicate k (Event.readStderr 0))).2
          = ((st.aStderrBuffer.drop st.iStderrIndex).take k).map (Out.line Sid.stderr)
            ++ List.replicate (k - (st.aStderrBuffer.length - st.iStderrIndex))
                (Out.eos Sid.stderr)
        ∧ (runEvents st (List.replicate k (Event.readStderr 0))).1.aStderrBuffer
          = st.aStderrBuffer
        ∧ (runEvents st (List.replicate k (Event.readStderr 0))).1.bRunning = false := by
  induction k with
  | zero => exact fun st h => ⟨by simp [runEvents], rfl, h⟩
  | succ k ih =>
    intro st h
    rw [List.replicate_succ]
    by_cases hc : st.aStderrBuffer.length ≤ st.iStderrIndex
    · have hstep : st.stepEv (Event.readStderr 0) = (st, [Out.eos Sid.stderr]) := by
        simp [Executor.stepEv, Executor.stderrReadStep, ge_iff_le, hc, h]
      obtain ⟨ho, hb, hr⟩ := ih st h
      have hz : st.aStderrBuffer.length - st.iStderrIndex = 0 :=
        Nat.sub_eq_zero_of_le hc
      have hd : st.aStderrBuffer.drop st.iStderrIndex = [] :=
        List.drop_eq_nil_of_le hc
      refine ⟨?_, ?_, ?_⟩
      · simp only [runEvents, hstep, ho, hz, hd, Nat.sub_zero, List.take_nil,
          List.map_nil, List.nil_append, List.replicate_succ, List.cons_append,
          List.singleton_append]
      · simp only [runEvents, hstep, hb]
      · simp only [runEvents, hstep, hr]
    · have hlt : st.iStderrIndex < st.aStderrBuffer.length := Nat.lt_of_not_le hc
      have hstep : st.stepEv (Event.readStderr 0)
          = ({ st with iStderrIndex := st.iStderrIndex + 1 },
            [Out.line Sid.stderr (st.aStderrBuffer.getD st.iStderrIndex [])]) := by
        simp [Executor.stepEv, Executor.stderrReadStep, ge_iff_le, hc]
      obtain ⟨ho, hb, hr⟩ := ih { st with iStderrIndex := st.iStderrIndex + 1 } h
      refine ⟨?_, ?_, ?_⟩
      · simp only [runEvents, hstep, ho]
        rw [List.drop_eq_getElem_cons hlt, List.take_succ_cons, List.map_cons,
          List.getD_eq_getElem _ _ hlt]
        have hcount : k + 1 - (st.aStderrBuffer.length - st.iStderrIndex)
            = k - (st.aStderrBuffer.length - (st.iStderrIndex + 1)) := by omega
        simp [hcount]
      · simp only [runEvents, hstep, hb]
      · simp only [runEvents, hstep, hr]

/-- Claim C4: on an executor whose process has terminated (run flag false),
any number k of successive next-line calls on a stream first returns the
already-buffered unread lines in order (the first k of them) and then the
end-of-stream sentinel for every remaining call — so once the sentinel is
returned every later call returns it again; read calls never change the line
buffer and the executor stays terminated.  Both streams behave alike. -/
theorem terminated_executor_drains_then_eos (st : Executor)
    (h : st.bRunning = false) (k : Nat) :
    ((runEvents st (List.replicate k (Event.readStdout 0))).2
          = ((st.aStdoutBuffer.drop st.iStdoutIndex).take k).map (Out.line Sid.stdout)
            ++ List.replicate (k - (st.aStdoutBuffer.length - st.iStdoutIndex))
                (Out.eos Sid.stdout)
        ∧ (runEvents st (List.replicate k (Event.readStdout 0))).1.aStdoutBuffer
          = st.aStdoutBuffer
        ∧ (runEvents st (List.replicate k (Event.readStdout 0))).1.bRunning = false)
      ∧ ((runEvents st (List.replicate k (Event.readStderr 0))).2
          = ((st.aStderrBuffer.drop st.iStderrIndex).take k).map (Out.line Sid.stderr)
            ++ List.replicate (k - (st.aStderrBuffer.length - st.iStderrIndex))
                (Out.eos Sid.stderr)
        ∧ (runEvents st (List.replicate k (Event.readStderr 0))).1.aStderrBuffer
          = st.aStderrBuffer
        ∧ (runEvents st (List.replicate k (Event.readStderr 0))).1.bRunning = false) :=
  ⟨drain_stdout_after_termination k st h, drain_stderr_after_termination k st h⟩

/-- Witness for claim C4: a terminated executor with two buffered stdout
lines, one already read, drained by three further calls. -/
theorem terminated_executor_drains_then_eos_witness :
    ({ initExecutor with aStdoutBuffer := [['a'], ['b']], iStdoutIndex := 1 } :
        Executor).bRunning = false
      ∧ (runEvents { initExecutor with aStdoutBuffer := [['a'], ['b']], iStdoutIndex := 1 }
            (List.replicate 3 (Event.readStdout 0))).2
        = ((([['a'], ['b']] : List (List Char)).drop 1).take 3).map (Out.line Sid.stdout)
          ++ List.replicate (3 - (([['a'], ['b']] : List (List Char)).length - 1))
              (Out.eos Sid.stdout) :=
  ⟨rfl,
    (terminated_executor_drains_then_eos
      { initExecutor with aStdoutBuffer := [['a'], ['b']], iStdoutIndex := 1 } rfl 3).1.1⟩

/-- The lines returned to stdout readers among a list of outputs. -/
def stdoutLines (outs : List Out) : List (List Char) :=
  outs.filterMap fun o =>
    match o with
    | .line .stdout s => some s
    | _ => none

/-- The lines returned to stderr readers among a list of outputs. -/
def stderrLines (outs : List Out) : List (List Char) :=
  outs.filterMap fun o =>
    match o with
    | .line .stderr s => some s
    | _ => none

theorem slice_glue {α : Type} (buf1 buf2 : List α) (i j k : Nat)
    (hpre : buf1 <+: buf2) (hij : i ≤ j) (hj : j ≤ buf1.length) (hjk : j ≤ k) :
    (buf1.drop i).take (j - i) ++ (buf2.drop j).take (k - j)
      = (buf2.drop i).take (k - i) := by
  obtain ⟨t, rfl⟩ := hpre
  have h1 : (buf1.drop i).take (j - i) = ((buf1 ++ t).drop i).take (j - i) := by
    rw [List.drop_append_of_le_length (le_trans hij hj),
      List.take_append_of_le_length (by rw [List.length_drop]; omega)]
  rw [h1]
  have h2 : (buf1 ++ t).drop j = ((buf1 ++ t).drop i).drop (j - i) := by
    rw [List.drop_drop]
    congr 1
    omega
  have h3 : k - i = (j - i) + (k - j) := by omega
  rw [h2, h3, List.take_add]

/-- A read step never changes either line buffer (reading is
non-destructive). -/
theorem readSteps_preserve_buffers (st : Executor) (w : Nat) :
    (st.stdoutReadStep w).1.aStdoutBuffer = st.aStdoutBuffer
      ∧ (st.stderrReadStep w).1.aStderrBuffer = st.aStderrBuffer := by
  constructor
  · simp only [Executor.stdoutReadStep]
    split
    · split <;> rfl
    · rfl
  · simp only [Executor.stderrReadStep]
    split
    · split <;> rfl
    · rfl

theorem onStdoutData_proj (st : Executor) (c : List Char) :
    (st.onStdoutData c).1.aStdoutBuffer
        = st.aStdoutBuffer ++ (splitSep lineSep (st.sStdoutChunk ++ c)).dropLast
      ∧ (st.onStdoutData c).1.aStderrBuffer = st.aStderrBuffer
      ∧ (st.onStdoutData c).1.iStdoutIndex = st.iStdoutIndex
      ∧ (st.onStdoutData c).1.iStderrIndex = st.iStderrIndex
      ∧ stdoutLines (st.onStdoutData c).2 = []
      ∧ stderrLines (st.onStdoutData c).2 = [] := by
  cases hr : st.fnOutputResolve <;>
    simp [Executor.onStdoutData, pushChunk, hr, stdoutLines, stderrLines]

theorem onStderrData_proj (st : Executor) (c : List Char) :
    (st.onStderrData c).1.aStderrBuffer
        = st.aStderrBuffer ++ (splitSep lineSep (st.sStderrChunk ++ c)).dropLast
      ∧ (st.onStderrData c).1.aStdoutBuffer = st.aStdoutBuffer
      ∧ (st.onStderrData c).1.iStdoutIndex = st.iStdoutIndex
      ∧ (st.onStderrData c).1.iStderrIndex = st.iStderrIndex
      ∧ stdoutLines (st.onStderrData c).2 = []
      ∧ stderrLines (st.onStderrData c).2 = [] := by
  simp [Executor.onStderrData, pushChunk, stdoutLines, stderrLines]

theorem onClose_proj (st : Executor) (code : Option Int) :
    (st.onClose code).1.aStdoutBuffer = st.aStdoutBuffer
      ∧ (st.onClose code).1.aStderrBuffer = st.aStderrBuffer
      ∧ (st.onClose code).1.iStdoutIndex = st.iStdoutIndex
      ∧ (st.onClose code).1.iStderrIndex = st.iStderrIndex
      ∧ stdoutLines (st.onClose code).2 = []
      ∧ stderrLines (st.onClose code).2 = [] := by
  cases hr : st.fnOutputResolve <;>
    simp [Executor.onClose, hr, stdoutLines, stderrLines]

theorem onError_proj (st : Executor) :
    (st.onError).1.aStdoutBuffer = st.aStdoutBuffer
      ∧ (st.onError).1.aStderrBuffer = st.aStderrBuffer
      ∧ (st.onError).1.iStdoutIndex = st.iStdoutIndex
      ∧ (st.onError).1.iStderrIndex = st.iStderrIndex
      ∧ stdoutLines (st.onError).2 = []
      ∧ stderrLines (st.onError).2 = [] := by
  cases hr : st.fnOutputReject <;>
    simp [Executor.onError, hr, stdoutLines, stderrLines]

/-- One arbitrary event preserves the read-cursor discipline: buffers only
grow (by appending), read indices never decrease, the bound index ≤ buffered
lines is preserved, and the stream lines among the event's outputs are
exactly the slice of the new buffer between the old and new index of that
stream. -/
theorem stepEv_facts (st : Executor) (e : Event) :
    st.aStdoutBuffer <+: (st.stepEv e).1.aStdoutBuffer
      ∧ st.aStderrBuffer <+: (st.stepEv e).1.aStderrBuffer
      ∧ st.iStdoutIndex ≤ (st.stepEv e).1.iStdoutIndex
      ∧ st.iStderrIndex ≤ (st.stepEv e).1.iStderrIndex
      ∧ (st.iStdoutIndex ≤ st.aStdoutBuffer.length →
          (st.stepEv e).1.iStdoutIndex ≤ (st.stepEv e).1.aStdoutBuffer.length)
      ∧ (st.iStderrIndex ≤ st.aStderrBuffer.length →
          (st.stepEv e).1.iStderrIndex ≤ (st.stepEv e).1.aStderrBuffer.length)
      ∧ stdoutLines (st.stepEv e).2
        = ((st.stepEv e).1.aStdoutBuffer.drop st.iStdoutIndex).take
            ((st.stepEv e).1.iStdoutIndex - st.iStdoutIndex)
      ∧ stderrLines (st.stepEv e).2
        = ((st.stepEv e).1.aStderrBuffer.drop st.iStderrIndex).take
            ((st.stepEv e).1.iStderrIndex - st.iStderrIndex) := by
  cases e with
  | stdoutData c =>
    obtain ⟨p1, p2, p3, p4, p5, p6⟩ := onStdoutData_proj st c
    simp only [Executor.stepEv]
    rw [p1, p2, p3, p4, p5, p6]
    refine ⟨List.prefix_append _ _, List.prefix_refl _, le_refl _, le_refl _,
      ?_, id, ?_, ?_⟩
    · intro h
      rw [List.length_append]
      omega
    · rw [Nat.sub_self, List.take_zero]
    · rw [Nat.sub_self, List.take_zero]
  | stderrData c =>
    obtain ⟨p1, p2, p3, p4, p5, p6⟩ := onStderrData_proj st c
    simp only [Executor.stepEv]
    rw [p1, p2, p3, p4, p5, p6]
    refine ⟨List.prefix_refl _, List.prefix_append _ _, le_refl _, le_refl _,
      id, ?_, ?_, ?_⟩
    · intro h
      rw [List.length_append]
      omega
    · rw [Nat.sub_self, List.take_zero]
    · rw [Nat.sub_self, List.take_zero]
  | close code =>
    obtain ⟨p1, p2, p3, p4, p5, p6⟩ := onClose_proj st code
    simp only [Executor.stepEv]
    rw [p1, p2, p3, p4, p5, p6]
    exact ⟨List.prefix_refl _, List.prefix_refl _, le_refl _, le_refl _, id, id,
      by rw [Nat.sub_self, List.take_zero], by rw [Nat.sub_self, List.take_zero]⟩
  | error =>
    obtain ⟨p1, p2, p3, p4, p5, p6⟩ := onError_proj st
    simp only [Executor.stepEv]
    rw [p1, p2, p3, p4, p5, p6]
    exact ⟨List.prefix_refl _, List.prefix_refl _, le_refl _, le_refl _, id, id,
      by rw [Nat.sub_self, List.take_zero], by rw [Nat.sub_self, List.take_zero]⟩
  | readStdout w =>
    by_cases hc : st.aStdoutBuffer.length ≤ st.iStdoutIndex
    · by_cases hb : st.bRunning
      · have hstep : st.stepEv (Event.readStdout w)
            = ({ st with fnOutputResolve := some w, fnOutputReject := some w },
              [Out.suspended w]) := by
          simp [Executor.stepEv, Executor.stdoutReadStep, ge_iff_le, hc, hb]
        rw [hstep]
        exact ⟨List.prefix_refl _, List.prefix_refl _, le_refl _, le_refl _, id, id,
          by simp [stdoutLines], by simp [stderrLines]⟩
      · have hstep : st.stepEv (Event.readStdout w) = (st, [Out.eos Sid.stdout]) := by
          simp [Executor.stepEv, Executor.stdoutReadStep, ge_iff_le, hc, hb]
        rw [hstep]
        exact ⟨List.prefix_refl _, List.prefix_refl _, le_refl _, le_refl _, id, id,
          by simp [stdoutLines], by simp [stderrLines]⟩
    · have hlt : st.iStdoutIndex < st.aStdoutBuffer.length := Nat.lt_of_not_le hc
      have hstep : st.stepEv (Event.readStdout w)
          = ({ st with iStdoutIndex := st.iStdoutIndex + 1 },
            [Out.line Sid.stdout (st.aStdoutBuffer.getD st.iStdoutIndex [])]) := by
        simp [Executor.stepEv, Executor.stdoutReadStep, ge_iff_le, hc]
      rw [hstep]
      refine ⟨List.prefix_refl _, List.prefix_refl _, Nat.le_succ _, le_refl _,
        fun _ => hlt, id, ?_, by simp [stderrLines]⟩

      have hone : st.iStdoutIndex + 1 - st.iStdoutIndex = 1 := by omega
      rw [hone, List.drop_eq_getElem_cons hlt, List.take_succ_cons, List.take_zero,
        List.getD_eq_getElem _ _ hlt]
      simp [stdoutLines]
  | readStderr w =>
    by_cases hc : st.aStderrBuffer.length ≤ st.iStderrIndex
    · by_cases hb : st.bRunning
      · have hstep : st.stepEv (Event.readStderr w)
            = ({ st with fnOutputResolve := some w, fnOutputReject := some w },
              [Out.suspended w]) := by
          simp [Executor.stepEv, Executor.stderrReadStep, ge_iff_le, hc, hb]
        rw [hstep]
        exact ⟨List.prefix_refl _, List.prefix_refl _, le_refl _, le_refl _, id, id,
          by simp [stdoutLines], by simp [stderrLines]⟩
      · have hstep : st.stepEv (Event.readStderr w) = (st, [Out.eos Sid.stderr]) := by
          simp [Executor.stepEv, Executor.stderrReadStep, ge_iff_le, hc, hb]
        rw [hstep]
        exact ⟨List.prefix_refl _, List.prefix_refl _, le_refl _, le_refl _, id, id,
          by simp [stdoutLines], by simp [stderrLines]⟩
    · have hlt : st.iStderrIndex < st.aStderrBuffer.length := Nat.lt_of_not_le hc
      have hstep : st.stepEv (Event.readStderr w)
          = ({ st with iStderrIndex := st.iStderrIndex + 1 },
            [Out.line Sid.stderr (st.aStderrBuffer.getD st.iStderrIndex [])]) := by
        simp [Executor.stepEv, Executor.stderrReadStep, ge_iff_le, hc]
      rw [hstep]
      refine ⟨List.prefix_refl _, List.prefix_refl _, le_refl _, Nat.le_succ _,
        id, fun _ => hlt, by simp [stdoutLines], ?_⟩
      have hone : st.iStderrIndex + 1 - st.iStderrIndex = 1 := by omega
      rw [hone, List.drop_eq_getElem_cons hlt, List.take_succ_cons, List.take_zero,
        List.getD_eq_getElem _ _ hlt]
      simp [stderrLines]

/-- Claim C7: read-cursor discipline.  Starting from any executor state whose
read indices are within their buffers, over any sequence of events: each
stream's line buffer only grows by appending (reads are non-destructive — a
single read step leaves the buffers exactly unchanged, last conjunct), each
read index is monotonically non-decreasing and never exceeds the buffered
line count, and the lines handed to each stream's readers are exactly the
consecutive slice of the final buffer between the initial and final index of
that stream — each line returned at the then-current index, the index
advancing by one per returned line, so no line is ever returned twice. -/
theorem read_cursor_discipline (evs : List Event) :
    ∀ st : Executor,
      st.iStdoutIndex ≤ st.aStdoutBuffer.length →
      st.iStderrIndex ≤ st.aStderrBuffer.length →
      st.aStdoutBuffer <+: (runEvents st evs).1.aStdoutBuffer
        ∧ st.aStderrBuffer <+: (runEvents st evs).1.aStderrBuffer
        ∧ st.iStdoutIndex ≤ (runEvents st evs).1.iStdoutIndex
        ∧ st.iStderrIndex ≤ (runEvents st evs).1.iStderrIndex
        ∧ (runEvents st evs).1.iStdoutIndex ≤ (runEvents st evs).1.aStdoutBuffer.length
        ∧ (runEvents st evs).1.iStderrIndex ≤ (runEvents st evs).1.aStderrBuffer.length
        ∧ stdoutLines (runEvents st evs).2
          = ((runEvents st evs).1.aStdoutBuffer.drop st.iStdoutIndex).take
              ((runEvents st evs).1.iStdoutIndex - st.iStdoutIndex)
        ∧ stderrLines (runEvents st evs).2
          = ((runEvents st evs).1.aStderrBuffer.drop st.iStderrIndex).take
              ((runEvents st evs).1.iStderrIndex - st.iStderrIndex)
        ∧ (∀ w, (st.stdoutReadStep w).1.aStdoutBuffer = st.aStdoutBuffer
            ∧ (st.stderrReadStep w).1.aStderrBuffer = st.aStderrBuffer) := by
  induction evs with
  | nil =>
    intro st h1 h2
    exact ⟨List.prefix_refl _, List.prefix_refl _, le_refl _, le_refl _, h1, h2,
      by simp only [runEvents, Nat.sub_self, List.take_zero]; rfl,
      by simp only [runEvents, Nat.sub_self, List.take_zero]; rfl,
      readSteps_preserve_buffers st⟩
  | cons e es ih =>
    intro st h1 h2
    obtain ⟨f1, f2, f3, f4, f5, f6, f7, f8⟩ := stepEv_facts st e
    obtain ⟨g1, g2, g3, g4, g5, g6, g7, g8, _⟩ := ih (st.stepEv e).1 (f5 h1) (f6 h2)
    have hrun : runEvents st (e :: es)
        = ((runEvents (st.stepEv e).1 es).1,
          (st.stepEv e).2 ++ (runEvents (st.stepEv e).1 es).2) := rfl
    rw [hrun]
    refine ⟨f1.trans g1, f2.trans g2, le_trans f3 g3, le_trans f4 g4, g5, g6,
      ?_, ?_, readSteps_preserve_buffers st⟩
    · rw [stdoutLines, List.filterMap_append, ← stdoutLines, ← stdoutLines, f7, g7]
      exact slice_glue _ _ _ _ _ g1 f3 (f5 h1) g3
    · rw [stderrLines, List.filterMap_append, ← stderrLines, ← stderrLines, f8, g8]
      exact slice_glue _ _ _ _ _ g2 f4 (f6 h2) g4

/-- Witness for claim C7: a data event delivering one complete line followed
by one read returns exactly that line as the slice between the cursors. -/
theorem read_cursor_discipline_witness :
    stdoutLines (runEvents initExecutor
        [Event.stdoutData ['a', '\n'], Event.readStdout 0]).2
      = ((runEvents initExecutor
          [Event.stdoutData ['a', '\n'], Event.readStdout 0]).1.aStdoutBuffer.drop
            initExecutor.iStdoutIndex).take
          ((runEvents initExecutor
            [Event.stdoutData ['a', '\n'], Event.readStdout 0]).1.iStdoutIndex
            - initExecutor.iStdoutIndex) :=
  (read_cursor_discipline [Event.stdoutData ['a', '\n'], Event.readStdout 0]
    initExecutor (by decide) (by decide)).2.2.2.2.2.2.1

/-- The object returned by the Node child_process.spawnSync built-in: the
exit status is null when the process was killed by a signal or failed to
spawn, stdout and stderr are null when the spawn failed, and the error field
carries the spawn error when the OS could not create the process.  Per the
documented Node semantics, spawnSync reports a launch failure this way by
returning normally; it throws only for invalid-argument conditions. -/
structure SpawnSyncResult where
  status : Option Int
  stdout : Option (List Char)
  stderr : Option (List Char)
  error : Option (List Char)
deriving DecidableEq

/-- JS loose equality of the status against 0, as in the source's check on
oResult.status: a null status compares unequal to 0. -/
def statusEqZero : Option Int → Bool
  | some n => n == 0
  | none => false

/-- System.execCommandSync (sys-node.mjs lines 224-244), parametrized by the
outcome of the spawnSync call on the given command: the result tuple starts
as [false, -1, empty, empty]; inside the try block it is replaced by the
tuple built from the spawnSync result object; a thrown exception is caught
(and logged), leaving the initial tuple to be returned. -/
def execCommandSync (outcome : Except (List Char) SpawnSyncResult) :
    Bool × Option Int × Option (List Char) × Option (List Char) :=
  match outcome with
  | .error _ => (false, some (-1), some [], some [])
  | .ok r => (statusEqZero r.status, r.status, r.stdout, r.stderr)

/-- The spawnSync result of a launch failure (for example a non-existent
executable), per the documented Node semantics. -/
def spawnLaunchFailure : SpawnSyncResult :=
  { status := none, stdout := none, stderr := none, error := some ['E'] }

/-- Counterexample to claim C6: a launch failure does not yield the tuple
{false, -1, empty, empty} — spawnSync returns normally with a null status
and null streams, so the wrapper returns {false, null, null, null}. -/
theorem execCommandSync_launch_failure_counterexample :
    execCommandSync (Except.ok spawnLaunchFailure) = (false, none, none, none)
      ∧ execCommandSync (Except.ok spawnLaunchFailure)
        ≠ (false, some (-1), some [], some []) := by
  decide

/-- Claim C6 (amended): execCommandSync never throws and always returns a
4-tuple of success flag, exit status, stdout text and stderr text; when
spawnSync returns a result object the tuple is built from it and the success
flag is true exactly when the exit status equals 0 (so in particular it is
false on a launch failure, where the status is null); the tuple
{false, -1, empty, empty} is returned exactly when spawnSync itself throws,
which a launch failure does not. -/
theorem execCommandSync_contract (outcome : Except (List Char) SpawnSyncResult) :
    (∀ e, outcome = Except.error e →
        execCommandSync outcome = (false, some (-1), some [], some []))
      ∧ (∀ r, outcome = Except.ok r →
          execCommandSync outcome = (statusEqZero r.status, r.status, r.stdout, r.stderr)
            ∧ ((execCommandSync outcome).1 = true ↔ r.status = some 0)) := by
  constructor
  · intro e he
    rw [he]
    rfl
  · intro r hr
    subst hr
    refine ⟨rfl, ?_⟩
    rcases hs : r.status with _ | n
    · simp [execCommandSync, statusEqZero, hs]
    · simp [execCommandSync, statusEqZero, hs]

/-- Witness for the amended claim C6 at the launch-failure outcome. -/
theorem execCommandSync_contract_witness :
    execCommandSync (Except.ok spawnLaunchFailure)
      = (statusEqZero spawnLaunchFailure.status, spawnLaunchFailure.status,
        spawnLaunchFailure.stdout, spawnLaunchFailure.stderr) :=
  ((execCommandSync_contract (Except.ok spawnLaunchFailure)).2
    spawnLaunchFailure rfl).1

/-- SystemBase.splitString (sys-common.mjs lines 78-109) on the validated
path: a string input and a one-character separator (the dynamic type and
length checks of the source collapse in this typed embedding).  The source
loops while text remains: it finds the first separator occurrence — no
occurrence pushes the whole remaining text and stops; an occurrence at index
i pushes the text before i (the characters before the first separator, here
takeWhile), continues with the text after i (the characters from the first
separator on, here dropWhile, minus that separator), and first strips the
run of consecutive separators now leading the remaining text.  The empty
input yields the empty array. -/
def splitString (sText : List Char) (cSeparator : Char) : List (List Char) :=
  if sText = [] then []
  else if h : cSeparator ∈ sText then
    sText.takeWhile (fun x => x != cSeparator)
      :: splitString (((sText.dropWhile (fun x => x != cSeparator)).drop 1).dropWhile
            (fun x => x == cSeparator)) cSeparator
  else [sText]
termination_by sText.length
decreasing_by
  have hne : sText.dropWhile (fun x => x != cSeparator) ≠ [] := by
    rw [Ne, List.dropWhile_eq_nil_iff]
    push_neg
    exact ⟨cSeparator, h, by simp⟩
  have h1 : (((sText.dropWhile (fun x => x != cSeparator)).drop 1).dropWhile
        (fun x => x == cSeparator)).length
      ≤ ((sText.dropWhile (fun x => x != cSeparator)).drop 1).length :=
    (List.dropWhile_sublist _).length_le
  have h2 : (sText.dropWhile (fun x => x != cSeparator)).length ≤ sText.length :=
    (List.dropWhile_sublist _).length_le
  have h3 : 0 < (sText.dropWhile (fun x => x != cSeparator)).length :=
    List.length_pos.mpr hne
  have h4 : 0 < sText.length := by
    cases sText with
    | nil => simp at h
    | cons a l => simp
  rw [List.length_drop] at h1
  omega

theorem dropWhile_head_false (p : Char → Bool) (l : List Char) (x : Char)
    (xs : List Char) (h : l.dropWhile p = x :: xs) : p x = false := by
  induction l with
  | nil => simp [List.dropWhile] at h
  | cons a as ih =>
    rw [List.dropWhile_cons] at h
    by_cases hp : p a
    · rw [if_pos hp] at h
      exact ih h
    · rw [if_neg hp] at h
      injection h with h1 _
      subst h1
      simpa using hp

theorem splitString_no_sep (s : List Char) (c : Char) (h1 : s ≠ []) (h2 : c ∉ s) :
    splitString s c = [s] := by
  rw [splitString, if_neg h1, dif_neg h2]

theorem splitString_elems_aux (c : Char) :
    ∀ n, ∀ s : List Char, s.length ≤ n →
      (s.head? ≠ some c → ∀ x ∈ splitString s c, x ≠ [])
        ∧ (∀ x ∈ (splitString s c).tail, x ≠ []) := by
  intro n
  induction n with
  | zero =>
    intro s h
    have hs : s = [] := List.length_eq_zero.mp (Nat.le_zero.mp h)
    subst hs
    simp [splitString]
  | succ n ih =>
    intro s hlen
    by_cases h0 : s = []
    · subst h0
      simp [splitString]
    by_cases hc : c ∈ s
    · have hrw : splitString s c
          = s.takeWhile (fun x => x != c)
            :: splitString (((s.dropWhile (fun x => x != c)).drop 1).dropWhile
                  (fun x => x == c)) c := by
        rw [splitString, if_neg h0, dif_pos hc]
      have hs'head : (((s.dropWhile (fun x => x != c)).drop 1).dropWhile
          (fun x => x == c)).head? ≠ some c := by
        rcases hh : ((s.dropWhile (fun x => x != c)).drop 1).dropWhile
            (fun x => x == c) with _ | ⟨y, ys⟩
        · simp
        · have hy := dropWhile_head_false _ _ _ _ hh
          simp only [List.head?_cons, Ne, Option.some.injEq]
          intro he
          rw [he] at hy
          simp at hy
      have hs'len : (((s.dropWhile (fun x => x != c)).drop 1).dropWhile
          (fun x => x == c)).length ≤ n := by
        have hne : s.dropWhile (fun x => x != c) ≠ [] := by
          rw [Ne, List.dropWhile_eq_nil_iff]
          push_neg
          exact ⟨c, hc, by simp⟩
        have hd1 : (((s.dropWhile (fun x => x != c)).drop 1).dropWhile
              (fun x => x == c)).length
            ≤ ((s.dropWhile (fun x => x != c)).drop 1).length :=
          (List.dropWhile_sublist _).length_le
        have hd2 : (s.dropWhile (fun x => x != c)).length ≤ s.length :=
          (List.dropWhile_sublist _).length_le
        have hd3 : 0 < (s.dropWhile (fun x => x != c)).length :=
          List.length_pos.mpr hne
        rw [List.length_drop] at hd1
        omega
      obtain ⟨ihA, ihB⟩ := ih _ hs'len
      constructor
      · intro hhead x hx
        rw [hrw, List.mem_cons] at hx
        rcases hx with rfl | hx'
        · rcases s with _ | ⟨a, as⟩
          · exact absurd rfl h0
          · have ha : ¬ a = c := by
              simp only [List.head?_cons, Ne, Option.some.injEq] at hhead
              exact hhead
            rw [List.takeWhile_cons_of_pos (by simp [ha])]
            simp
        · exact ihA hs'head x hx'
      · intro x hx
        rw [hrw] at hx
        exact ihA hs'head x hx
    · rw [splitString_no_sep s c h0 hc]
      constructor
      · intro _ x hx
        rw [List.mem_singleton] at hx
        subst hx
        exact h0
      · intro x hx
        simp at hx

/-- Counterexample to claim C10: an input beginning with the separator makes
splitString push the empty segment before the first separator, so the result
contains an empty-string element, contradicting the claim that leading empty
segments are dropped. -/
theorem splitString_leading_empty_counterexample :
    splitString [',', 'a'] ',' = [[], ['a']]
      ∧ [] ∈ splitString [',', 'a'] ',' := by
  constructor
  · simp [splitString]
  · simp [splitString]

/-- Claim C10 (amended): splitString of the empty string is the empty array;
a non-empty string without the separator yields the one-element array holding
the string; every element after the first is non-empty (runs of consecutive
separators are collapsed and trailing separators produce nothing), and when
the input does not begin with the separator every element is non-empty — but
an input beginning with the separator yields an empty first element (see the
counterexample).  The Executor's line splitting, in contrast, preserves empty
lines between consecutive separators (last conjunct). -/
theorem splitString_spec (s : List Char) (c : Char) :
    splitString [] c = []
      ∧ (s ≠ [] → c ∉ s → splitString s c = [s])
      ∧ (∀ x ∈ (splitString s c).tail, x ≠ [])
      ∧ (s.head? ≠ some c → ∀ x ∈ splitString s c, x ≠ [])
      ∧ splitSep ',' ['a', ',', ',', 'b'] = [['a'], [], ['b']] := by
  have aux := splitString_elems_aux c s.length s (le_refl _)
  exact ⟨by simp [splitString], splitString_no_sep s c, aux.2, aux.1, by decide⟩

/-- Witness for the amended claim C10: a string without the separator splits
into the one-element array holding it. -/
theorem splitString_spec_witness :
    splitString ['a', 'b'] ',' = [['a', 'b']] :=
  (splitString_spec ['a', 'b'] ',').2.1 (by decide) (by decide)

end JsLib
